import Mathlib

/-!
Verification of the Korean-syllable decomposition / phonetic-similarity engine
and the round/session state machine of the goGame repository.

Strings are embedded as lists of Unicode scalar values (Lean `Char`).  The
hangul-module string functions iterate per scalar value in the source
(`Array.from(text)`, `for (const char of text)`), so the scalar embedding is
exact for them.  `levenshteinDistance`, however, indexes raw JavaScript
strings (`a.length`, `a[i]`) and therefore runs over UTF-16 code units;
`utf16Units` converts the scalar view to the code-unit view and
`levenshteinDistanceUtf16` is the faithful embedding of that function, while
`levenshteinDistance` below is its scalar-sequence reading, which agrees with
the source exactly on surrogate-free (BMP-only) strings such as every profile
channel.  JavaScript number arithmetic on similarity scores is embedded as
exact rational arithmetic (`ℚ`); integer indices and counters are `Nat`.
`String.prototype.toLowerCase` is embedded as the ASCII case fold; the full
Unicode fold of the source differs on exotic code points that fold into the
kept alphabet (e.g. U+212A KELVIN SIGN becomes k and is kept by the source but
stripped here), none of which are reachable in the claims verified below.
-/

namespace GoGame

/-- src/lib/hangul.ts line 1: base of the precomposed Hangul syllable block. -/
def HANGUL_BASE : Nat := 0xac00

/-- src/lib/hangul.ts line 2: last code point of the block. -/
def HANGUL_LAST : Nat := 0xd7a3

/-- src/lib/hangul.ts line 3. -/
def VOWEL_COUNT : Nat := 21

/-- src/lib/hangul.ts line 4. -/
def FINAL_CONSONANT_COUNT : Nat := 28

/-- src/lib/hangul.ts line 5: 21 * 28 = 588. -/
def CYCLE : Nat := VOWEL_COUNT * FINAL_CONSONANT_COUNT

/-- src/lib/hangul.ts lines 7-27: the 19 initial-consonant glyphs. -/
def CHOSEONG : List Char :=
  ['ㄱ', 'ㄲ', 'ㄴ', 'ㄷ', 'ㄸ', 'ㄹ', 'ㅁ', 'ㅂ', 'ㅃ', 'ㅅ', 'ㅆ', 'ㅇ', 'ㅈ', 'ㅉ',
   'ㅊ', 'ㅋ', 'ㅌ', 'ㅍ', 'ㅎ']

/-- src/lib/hangul.ts lines 29-51: the 21 medial-vowel glyphs. -/
def JUNGSEONG : List Char :=
  ['ㅏ', 'ㅐ', 'ㅑ', 'ㅒ', 'ㅓ', 'ㅔ', 'ㅕ', 'ㅖ', 'ㅗ', 'ㅘ', 'ㅙ', 'ㅚ', 'ㅛ', 'ㅜ',
   'ㅝ', 'ㅞ', 'ㅟ', 'ㅠ', 'ㅡ', 'ㅢ', 'ㅣ']

/-- src/lib/hangul.ts lines 53-82: the 28 final-consonant entries; entry 0 is the
empty string (no trailing consonant), embedded as the empty character list. -/
def JONGSEONG : List (List Char) :=
  [[], ['ㄱ'], ['ㄲ'], ['ㄳ'], ['ㄴ'], ['ㄵ'], ['ㄶ'], ['ㄷ'], ['ㄹ'], ['ㄺ'], ['ㄻ'],
   ['ㄼ'], ['ㄽ'], ['ㄾ'], ['ㄿ'], ['ㅀ'], ['ㅁ'], ['ㅂ'], ['ㅄ'], ['ㅅ'], ['ㅆ'],
   ['ㅇ'], ['ㅈ'], ['ㅊ'], ['ㅋ'], ['ㅌ'], ['ㅍ'], ['ㅎ']]

/-- JavaScript regex \s character class (whitespace), used by sanitizeSequence. -/
def isJsWhitespace (c : Char) : Bool :=
  let n := c.toNat
  (9 ≤ n && n ≤ 13) || n == 32 || n == 160 || n == 0x1680 ||
    (0x2000 ≤ n && n ≤ 0x200a) || n == 0x2028 || n == 0x2029 || n == 0x202f ||
    n == 0x205f || n == 0x3000 || n == 0xfeff

/-- src/lib/hangul.ts line 84: complement of NON_WORD_CHARACTERS, i.e. the
character class [ㄱ-ㅎㅏ-ㅣ가-힣a-zA-Z0-9]. -/
def isWordChar (c : Char) : Bool :=
  ('ㄱ' ≤ c && c ≤ 'ㅎ') || ('ㅏ' ≤ c && c ≤ 'ㅣ') || ('가' ≤ c && c ≤ '힣') ||
    ('a' ≤ c && c ≤ 'z') || ('A' ≤ c && c ≤ 'Z') || ('0' ≤ c && c ≤ '9')

/-- src/lib/hangul.ts lines 86-87: lowercase fold, strip whitespace, strip
everything outside the word-character class.  Char.toLower is the ASCII fold;
the source's full Unicode fold additionally maps points such as U+212A into
the kept alphabet, a divergence outside the scope of the verified claims. -/
def sanitizeSequence (value : List Char) : List Char :=
  ((value.map Char.toLower).filter (fun c => !isJsWhitespace c)).filter isWordChar

/-- src/lib/hangul.ts line 89. -/
def isHangulSyllable (code : Nat) : Bool :=
  HANGUL_BASE ≤ code && code ≤ HANGUL_LAST

/-- src/lib/hangul.ts lines 107-119: per-character body of disassembleHangul.
In-range table indexing is embedded with getD; the indices are proved in range
below, so the defaults are never consulted. -/
def disassembleChar (char : Char) : List Char :=
  let code := char.toNat
  if isHangulSyllable code then
    let offset := code - HANGUL_BASE
    let choseongIndex := offset / CYCLE
    let jungseongIndex := (offset % CYCLE) / FINAL_CONSONANT_COUNT
    let jongseongIndex := offset % FINAL_CONSONANT_COUNT
    CHOSEONG.getD choseongIndex 'ㄱ' :: JUNGSEONG.getD jungseongIndex 'ㅏ' ::
      JONGSEONG.getD jongseongIndex []
  else
    [char]

/-- src/lib/hangul.ts lines 105-120: map each character and join. -/
def disassembleHangul (text : List Char) : List Char :=
  text.flatMap disassembleChar

/-- src/lib/hangul.ts lines 122-127. -/
structure PhonemeProfile where
  combined : List Char
  initial : List Char
  medial : List Char
  final : List Char
deriving DecidableEq

/-- src/lib/hangul.ts lines 135-162: one iteration of the accumulation loop of
createPhonemeProfile. -/
def profileStep (acc : PhonemeProfile) (char : Char) : PhonemeProfile :=
  let code := char.toNat
  if isHangulSyllable code then
    let offset := code - HANGUL_BASE
    let choseong := CHOSEONG.getD (offset / CYCLE) 'ㄱ'
    let jungseong := JUNGSEONG.getD ((offset % CYCLE) / FINAL_CONSONANT_COUNT) 'ㅏ'
    let jongseong := JONGSEONG.getD (offset % FINAL_CONSONANT_COUNT) []
    { combined := acc.combined ++ choseong :: jungseong :: jongseong
      initial := acc.initial ++ [choseong]
      medial := acc.medial ++ [jungseong]
      final := if jongseong.isEmpty then acc.final else acc.final ++ jongseong }
  else
    let normalized := sanitizeSequence [char]
    { combined := acc.combined ++ normalized
      initial := acc.initial ++ normalized
      medial := acc.medial ++ normalized
      final := acc.final ++ normalized }

/-- src/lib/hangul.ts lines 129-170. -/
def createPhonemeProfile (text : List Char) : PhonemeProfile :=
  let acc := text.foldl profileStep ⟨[], [], [], []⟩
  { combined := sanitizeSequence acc.combined
    initial := sanitizeSequence acc.initial
    medial := sanitizeSequence acc.medial
    final := sanitizeSequence acc.final }

/-- src/lib/hangul.ts line 172. -/
def normalizeForComparison (text : List Char) : List Char :=
  (createPhonemeProfile text).combined

variable {σ : Type} [DecidableEq σ]

/-- Cost of substituting x by y (0 when equal, 1 otherwise), as in line 196. -/
def subCost (x y : σ) : Nat := if x = y then 0 else 1

/-- Reference definition: the classic Levenshtein edit distance (insertion,
deletion, substitution each cost 1) over scalar-value sequences. -/
def editDistance : List σ → List σ → Nat
  | [], ys => ys.length
  | x :: xs, [] => (x :: xs).length
  | x :: xs, y :: ys =>
    min (editDistance xs (y :: ys) + 1)
      (min (editDistance (x :: xs) ys + 1) (editDistance xs ys + subCost x y))

/-- src/lib/hangul.ts lines 193-198: inner loop of the dynamic program.
cur0 is the value last written to currentRow; the list argument is the
portion of previousRow aligned with the remaining characters of b. -/
def levInner (ai : σ) : Nat → List Nat → List σ → List Nat
  | cur0, _, [] => [cur0]
  | cur0, p0 :: p1 :: ps, bj :: bs =>
    cur0 :: levInner ai (min (cur0 + 1) (min (p1 + 1) (p0 + subCost ai bj))) (p1 :: ps) bs
  | cur0, _, _ :: _ => [cur0]

/-- src/lib/hangul.ts lines 190-203: outer loop; i is the loop counter, and the
row copy at lines 200-202 is the accumulator update. -/
def levLoop (b : List σ) : Nat → List Nat → List σ → List Nat
  | _, prev, [] => prev
  | i, prev, ai :: arest => levLoop b (i + 1) (levInner ai (i + 1) prev b) arest

/-- src/lib/hangul.ts lines 174-206, read over the scalar-value view of the
two strings.  The source indexes raw JavaScript strings (a.length, a[i]), i.e.
UTF-16 code units; on surrogate-free strings - in particular every profile
channel, whose alphabet is jamo, Hangul syllables, ASCII letters and digits -
the code-unit and scalar views coincide.  levenshteinDistanceUtf16 below is
the fully faithful code-unit embedding of the same source function. -/
def levenshteinDistance (a b : List Char) : Nat :=
  if a = b then 0
  else if a.length = 0 then b.length
  else if b.length = 0 then a.length
  else (levLoop b 0 (List.range (b.length + 1)) a).getD b.length 0

/-- UTF-16 encoding of one Unicode scalar value: one code unit below 0x10000,
a surrogate pair at or above it. -/
def utf16Char (c : Char) : List Nat :=
  let n := c.toNat
  if n < 0x10000 then [n]
  else [0xd800 + (n - 0x10000) / 0x400, 0xdc00 + (n - 0x10000) % 0x400]

/-- The UTF-16 code-unit sequence of a string: the JavaScript a.length / a[i]
view of the scalar sequence. -/
def utf16Units (s : List Char) : List Nat :=
  s.flatMap utf16Char

/-- src/lib/hangul.ts lines 174-206, faithful to the source's indexing: the
dynamic program runs over the UTF-16 code units of the two strings (the string
equality test of line 175 equals code-unit sequence equality). -/
def levenshteinDistanceUtf16 (a b : List Char) : Nat :=
  if utf16Units a = utf16Units b then 0
  else if (utf16Units a).length = 0 then (utf16Units b).length
  else if (utf16Units b).length = 0 then (utf16Units a).length
  else (levLoop (utf16Units b) 0 (List.range ((utf16Units b).length + 1))
    (utf16Units a)).getD (utf16Units b).length 0

/-- Row of reference distances: entry j is the distance between ra and the
reversal of the j-th front segment of b prepended to rb. -/
def edRowAux (ra : List σ) : List σ → List σ → List Nat
  | rb, [] => [editDistance ra rb]
  | rb, bj :: bs => editDistance ra rb :: edRowAux ra (bj :: rb) bs

/-- One column of an alignment: an optional character from each side. -/
abbrev AlignPair (β : Type) : Type := Option β × Option β

/-- Cost of one alignment column. -/
def pairCost : AlignPair σ → Nat
  | (some x, some y) => subCost x y
  | (none, none) => 0
  | _ => 1

/-- Total cost of an alignment. -/
def alignCost (al : List (AlignPair σ)) : Nat := (al.map pairCost).sum

/-- al is an alignment of a with b: the left components spell a, the right
components spell b, and no column is empty on both sides. -/
def IsAlignment (al : List (AlignPair σ)) (a b : List σ) : Prop :=
  al.filterMap Prod.fst = a ∧ al.filterMap Prod.snd = b ∧ (none, none) ∉ al

/-- src/lib/hangul.ts lines 208-221; JavaScript number arithmetic is embedded
as exact rational arithmetic. -/
def similarityScore (a b : List Char) : ℚ :=
  if a.length = 0 ∧ b.length = 0 then 1
  else if a.length = 0 ∨ b.length = 0 then 0
  else
    max 0 (1 - (levenshteinDistance a b : ℚ) / ((max a.length b.length : ℕ) : ℚ))

/-- src/views/GameView.tsx lines 25-30. -/
structure SimilarityBreakdown where
  overall : ℤ
  initial : ℤ
  medial : ℤ
  final : ℤ
deriving DecidableEq

/-- src/views/GameView.tsx lines 32-36. -/
structure Guess where
  value : List Char
  normalized : List Char
  breakdown : SimilarityBreakdown
deriving DecidableEq

/-- src/views/GameView.tsx line 38. -/
inductive FeedbackTone
  | info
  | success
  | warn
deriving DecidableEq

/-- src/views/GameView.tsx line 148: round status. -/
inductive GameStatus
  | playing
  | cleared
deriving DecidableEq

/-- src/views/GameView.tsx lines 41-45. -/
structure PlayerStats where
  totalGuesses : Nat
  correctAnswers : Nat
  lastReset : List Char
deriving DecidableEq

/-- src/views/GameView.tsx lines 51-69: feedback tier of an overall percent;
the Korean message text is abstracted to its tone. -/
def formatFeedbackTone (overall : ℤ) : FeedbackTone :=
  if overall = 100 then .success
  else if overall ≥ 85 then .info
  else if overall ≥ 60 then .info
  else if overall ≥ 35 then .warn
  else .warn

/-- src/views/GameView.tsx line 71: Math.round(value * 100); Math.round rounds
half toward positive infinity, i.e. floor(x + 1/2). -/
def toPercent (value : ℚ) : ℤ := ⌊value * 100 + 1 / 2⌋

/-- src/views/GameView.tsx lines 73-82. -/
def scorePhonemes (guess : List Char) (answerProfile : PhonemeProfile) : SimilarityBreakdown :=
  let profile := createPhonemeProfile guess
  { overall := toPercent (similarityScore profile.combined answerProfile.combined)
    initial := toPercent (similarityScore profile.initial answerProfile.initial)
    medial := toPercent (similarityScore profile.medial answerProfile.medial)
    final := toPercent (similarityScore profile.final answerProfile.final) }

/-- Catalog record (src/data/words.ts is not among the provided sources; the
field set follows the spec's data model, section 3).  Functions that read the
module-level WORDS catalog take it as an explicit argument. -/
structure WordEntry where
  term : List Char
  category : List Char
  hint : List Char
  description : List Char
deriving DecidableEq

/-- src/views/GameView.tsx lines 84-99.  Math.floor(Math.random() * n) is an
arbitrary natural number below n, embedded by reducing a caller-supplied rnd
modulo the pool length; out-of-range indexing (JS undefined, only reachable on
an empty catalog) is embedded as none. -/
def pickNextEntry (words : List WordEntry) (rnd : Nat) (previousTerm : List Char)
    (solved : List (List Char)) : Option WordEntry :=
  let unsolvedPool :=
    words.filter (fun item => item.term != previousTerm && !(solved.contains item.term))
  if unsolvedPool.length > 0 then
    unsolvedPool[rnd % unsolvedPool.length]?
  else
    let fallbackPool := words.filter (fun item => item.term != previousTerm)
    if fallbackPool.length = 0 then
      words[rnd % words.length]?
    else
      fallbackPool[rnd % fallbackPool.length]?

/-- src/views/GameView.tsx lines 121-128: rolling hash with >>> 0 (unsigned
32-bit truncation) applied at every step, then index = hash mod catalog size. -/
def createDailyEntry (words : List WordEntry) (seed : List Char) : Option WordEntry :=
  let hash := seed.foldl (fun hash c => (hash * 31 + c.toNat) % 2 ^ 32) 0
  words[hash % words.length]?

/-- The spec's description of the daily hash: fold hash*31+charCode and reduce
modulo 2^32 as an unsigned 32-bit value. -/
def polyHash (seed : List Char) : Nat :=
  seed.foldl (fun h c => h * 31 + c.toNat) 0

/-- JavaScript String.prototype.trim: strip \s characters from both ends. -/
def jsTrim (s : List Char) : List Char :=
  ((s.dropWhile isJsWhitespace).reverse.dropWhile isJsWhitespace).reverse

/-- src/views/GameView.tsx lines 252-266: recordGuess. -/
def recordGuess (correct : Bool) (stats : PlayerStats) : PlayerStats :=
  { totalGuesses := stats.totalGuesses + 1
    correctAnswers := stats.correctAnswers + (if correct then 1 else 0)
    lastReset := stats.lastReset }

/-- The React component state touched by handleSubmit, bundled as one record. -/
structure GameState where
  currentEntry : WordEntry
  guesses : List Guess
  status : GameStatus
  solvedTerms : List (List Char)
  stats : PlayerStats
  feedback : Option FeedbackTone
  inputValue : List Char
deriving DecidableEq

/-- src/views/GameView.tsx lines 287-338: the submit handler as a pure state
transition.  answerProfile is the memoized profile of currentEntry.term. -/
def handleSubmit (s : GameState) : GameState :=
  let guess := jsTrim s.inputValue
  if guess.isEmpty then
    { s with feedback := some .warn }
  else
    let normalizedGuess := normalizeForComparison guess
    if normalizedGuess.isEmpty then
      { s with feedback := some .warn }
    else if s.guesses.any (fun item => item.normalized == normalizedGuess) then
      { s with feedback := some .warn }
    else
      let answerProfile := createPhonemeProfile s.currentEntry.term
      let breakdown := scorePhonemes guess answerProfile
      let newGuess : Guess :=
        { value := guess, normalized := normalizedGuess, breakdown := breakdown }
      let stats := recordGuess (breakdown.overall == 100) s.stats
      let tone := formatFeedbackTone breakdown.overall
      let base :=
        { s with
          guesses := newGuess :: s.guesses
          inputValue := []
          stats := stats
          feedback := some tone }
      if breakdown.overall == 100 then
        { base with
          status := .cleared
          solvedTerms :=
            if s.solvedTerms.contains s.currentEntry.term then s.solvedTerms
            else s.solvedTerms ++ [s.currentEntry.term] }
      else
        base

/-- What one character contributes to the combined channel (spec section 4.2). -/
def combinedContrib (c : Char) : List Char :=
  if isHangulSyllable c.toNat then
    let offset := c.toNat - HANGUL_BASE
    CHOSEONG.getD (offset / CYCLE) 'ㄱ' ::
      JUNGSEONG.getD ((offset % CYCLE) / FINAL_CONSONANT_COUNT) 'ㅏ' ::
        JONGSEONG.getD (offset % FINAL_CONSONANT_COUNT) []
  else
    sanitizeSequence [c]

/-- What one character contributes to the initial channel. -/
def initialContrib (c : Char) : List Char :=
  if isHangulSyllable c.toNat then
    [CHOSEONG.getD ((c.toNat - HANGUL_BASE) / CYCLE) 'ㄱ']
  else
    sanitizeSequence [c]

/-- What one character contributes to the medial channel. -/
def medialContrib (c : Char) : List Char :=
  if isHangulSyllable c.toNat then
    [JUNGSEONG.getD (((c.toNat - HANGUL_BASE) % CYCLE) / FINAL_CONSONANT_COUNT) 'ㅏ']
  else
    sanitizeSequence [c]

/-- What one character contributes to the final channel (nothing when the
syllable has no trailing consonant). -/
def finalContrib (c : Char) : List Char :=
  if isHangulSyllable c.toNat then
    JONGSEONG.getD ((c.toNat - HANGUL_BASE) % FINAL_CONSONANT_COUNT) []
  else
    sanitizeSequence [c]

/-- Concrete state used by the submission witnesses. -/
def exState : GameState :=
  { currentEntry := ⟨['a', 'b'], [], [], []⟩
    guesses := []
    status := .playing
    solvedTerms := []
    stats := ⟨0, 0, []⟩
    feedback := none
    inputValue := ['a', 'b'] }

/-- Concrete state used by the rejection witness. -/
def exStateEmpty : GameState := { exState with inputValue := [] }

/-- The spec's three-entry example catalog (section 8). -/
def exCatalog : List WordEntry :=
  [⟨['가', '방'], [], [], []⟩, ⟨['바', '다'], [], [], []⟩, ⟨['하', '늘'], [], [], []⟩]

theorem editDistance_nil_left (ys : List σ) : editDistance [] ys = ys.length := by
  cases ys <;> simp [editDistance]

theorem editDistance_nil_right (xs : List σ) : editDistance xs [] = xs.length := by
  cases xs <;> simp [editDistance]

theorem editDistance_cons_cons (x y : σ) (xs ys : List σ) :
    editDistance (x :: xs) (y :: ys) =
      min (editDistance xs (y :: ys) + 1)
        (min (editDistance (x :: xs) ys + 1) (editDistance xs ys + subCost x y)) := by
  simp [editDistance]

theorem editDistance_le_cons_left (x : σ) (a b : List σ) :
    editDistance (x :: a) b ≤ editDistance a b + 1 := by
  cases b with
  | nil => simp [editDistance_nil_right]
  | cons y ys => rw [editDistance_cons_cons]; omega

theorem editDistance_le_cons_right (y : σ) (a b : List σ) :
    editDistance a (y :: b) ≤ editDistance a b + 1 := by
  cases a with
  | nil => simp [editDistance_nil_left]
  | cons x xs => rw [editDistance_cons_cons]; omega

theorem editDistance_le_cons_cons (x y : σ) (a b : List σ) :
    editDistance (x :: a) (y :: b) ≤ editDistance a b + subCost x y := by
  rw [editDistance_cons_cons]; omega

theorem editDistance_self (a : List σ) : editDistance a a = 0 := by
  induction a with
  | nil => simp [editDistance]
  | cons x xs ih => rw [editDistance_cons_cons]; simp [subCost, ih]

theorem editDistance_eq_zero_iff : ∀ a b : List σ, editDistance a b = 0 ↔ a = b := by
  intro a
  induction a with
  | nil => intro b; cases b <;> simp [editDistance]
  | cons x xs ih =>
    intro b
    cases b with
    | nil => simp [editDistance_nil_right]
    | cons y ys =>
      rw [editDistance_cons_cons]
      constructor
      · intro h
        have hC : editDistance xs ys + subCost x y = 0 := by omega
        have hxy : x = y := by
          by_contra hne
          simp [subCost, hne] at hC
        have hxs : xs = ys := (ih ys).mp (by omega)
        rw [hxy, hxs]
      · intro h
        cases h
        simp [subCost, editDistance_self xs]

theorem alignCost_cons (p : AlignPair σ) (al : List (AlignPair σ)) :
    alignCost (p :: al) = pairCost p + alignCost al := by
  simp [alignCost]

theorem editDistance_le_alignCost :
    ∀ (al : List (AlignPair σ)) (a b : List σ),
      IsAlignment al a b → editDistance a b ≤ alignCost al := by
  intro al
  induction al with
  | nil =>
    intro a b h
    obtain ⟨ha, hb, -⟩ := h
    simp only [List.filterMap_nil] at ha hb
    subst ha
    subst hb
    simp [editDistance, alignCost]
  | cons p rest ih =>
    intro a b h
    obtain ⟨ha, hb, hmem⟩ := h
    have hmem' : (none, none) ∉ rest := fun hc => hmem (List.mem_cons_of_mem _ hc)
    obtain ⟨px, py⟩ := p
    have hrest := ih (rest.filterMap Prod.fst) (rest.filterMap Prod.snd) ⟨rfl, rfl, hmem'⟩
    cases px <;> cases py
    · exact absurd (List.mem_cons_self _ _) hmem
    · case none.some y =>
      simp only [List.filterMap_cons] at ha hb
      subst ha
      subst hb
      rw [alignCost_cons]
      calc editDistance (rest.filterMap Prod.fst) (y :: rest.filterMap Prod.snd)
          ≤ editDistance (rest.filterMap Prod.fst) (rest.filterMap Prod.snd) + 1 :=
            editDistance_le_cons_right ..
        _ ≤ pairCost (none, some y) + alignCost rest := by simp [pairCost]; omega
    · case some.none x =>
      simp only [List.filterMap_cons] at ha hb
      subst ha
      subst hb
      rw [alignCost_cons]
      calc editDistance (x :: rest.filterMap Prod.fst) (rest.filterMap Prod.snd)
          ≤ editDistance (rest.filterMap Prod.fst) (rest.filterMap Prod.snd) + 1 :=
            editDistance_le_cons_left ..
        _ ≤ pairCost (some x, none) + alignCost rest := by simp [pairCost]; omega
    · case some.some x y =>
      simp only [List.filterMap_cons] at ha hb
      subst ha
      subst hb
      rw [alignCost_cons]
      calc editDistance (x :: rest.filterMap Prod.fst) (y :: rest.filterMap Prod.snd)
          ≤ editDistance (rest.filterMap Prod.fst) (rest.filterMap Prod.snd) + subCost x y :=
            editDistance_le_cons_cons ..
        _ ≤ pairCost (some x, some y) + alignCost rest := by simp [pairCost]; omega

theorem exists_alignment :
    ∀ (a b : List σ), ∃ al, IsAlignment al a b ∧ alignCost al = editDistance a b := by
  intro a
  induction a with
  | nil =>
    intro b
    refine ⟨b.map (fun y => (none, some y)), ⟨?_, ?_, ?_⟩, ?_⟩
    · simp [List.filterMap_map, Function.comp_def]
    · simp [List.filterMap_map, Function.comp_def]
    · simp
    · simp only [alignCost, pairCost, editDistance_nil_left, List.map_map]
      induction b with
      | nil => simp
      | cons y ys ihb => simp [ihb, pairCost]; omega
  | cons x xs ih =>
    intro b
    induction b with
    | nil =>
      refine ⟨(x :: xs).map (fun c => (some c, none)), ⟨?_, ?_, ?_⟩, ?_⟩
      · simp [List.filterMap_map, Function.comp_def]
      · simp [List.filterMap_map, Function.comp_def]
      · simp
      · simp only [alignCost, pairCost, editDistance_nil_right, List.map_map]
        have : ∀ l : List σ, (l.map (pairCost ∘ fun c => ((some c : Option σ), (none : Option σ)))).sum = l.length := by
          intro l
          induction l with
          | nil => simp
          | cons c cs ihc => simp [ihc, pairCost]; omega
        simp [this, pairCost]; omega
    | cons y ys ihb =>
      obtain ⟨al1, ⟨ha1, hb1, hm1⟩, c1⟩ := ih (y :: ys)
      obtain ⟨al2, ⟨ha2, hb2, hm2⟩, c2⟩ := ihb
      obtain ⟨al3, ⟨ha3, hb3, hm3⟩, c3⟩ := ih ys
      have heq := editDistance_cons_cons x y xs ys
      have hcase : editDistance (x :: xs) (y :: ys) = editDistance xs (y :: ys) + 1 ∨
          editDistance (x :: xs) (y :: ys) = editDistance (x :: xs) ys + 1 ∨
          editDistance (x :: xs) (y :: ys) = editDistance xs ys + subCost x y := by omega
      rcases hcase with h | h | h
      · refine ⟨(some x, none) :: al1, ⟨?_, ?_, ?_⟩, ?_⟩
        · simp [List.filterMap_cons, ha1]
        · simp [List.filterMap_cons, hb1]
        · simp [hm1]
        · rw [alignCost_cons, h, c1]; simp [pairCost]; omega
      · refine ⟨(none, some y) :: al2, ⟨?_, ?_, ?_⟩, ?_⟩
        · simp [List.filterMap_cons, ha2]
        · simp [List.filterMap_cons, hb2]
        · simp [hm2]
        · rw [alignCost_cons, h, c2]; simp [pairCost]; omega
      · refine ⟨(some x, some y) :: al3, ⟨?_, ?_, ?_⟩, ?_⟩
        · simp [List.filterMap_cons, ha3]
        · simp [List.filterMap_cons, hb3]
        · simp [hm3]
        · rw [alignCost_cons, h, c3]; simp [pairCost]; omega

theorem subCost_le_one (x y : σ) : subCost x y ≤ 1 := by
  unfold subCost; split <;> omega

theorem subCost_triangle (x m y : σ) : subCost x y ≤ subCost x m + subCost m y := by
  by_cases h1 : x = m
  · subst h1; simp [subCost]
  · calc subCost x y ≤ 1 := subCost_le_one x y
      _ ≤ subCost x m + subCost m y := by simp only [subCost, if_neg h1]; omega

theorem exists_compose_alignment :
    ∀ (n : Nat) (al1 al2 : List (AlignPair σ)) (a c b : List σ),
      al1.length + al2.length ≤ n →
      IsAlignment al1 a c → IsAlignment al2 c b →
      ∃ al, IsAlignment al a b ∧ alignCost al ≤ alignCost al1 + alignCost al2 := by
  intro n
  induction n with
  | zero =>
    intro al1 al2 a c b hlen h1 h2
    have e1 : al1 = [] := List.length_eq_zero.mp (by omega)
    have e2 : al2 = [] := List.length_eq_zero.mp (by omega)
    subst e1; subst e2
    obtain ⟨ha, hc, -⟩ := h1
    obtain ⟨-, hb, -⟩ := h2
    simp only [List.filterMap_nil] at ha hb
    subst ha; subst hb
    exact ⟨[], ⟨rfl, rfl, by simp⟩, by simp⟩
  | succ n ih =>
    intro al1 al2 a c b hlen h1 h2
    obtain ⟨ha, hc, hm1⟩ := h1
    obtain ⟨hc2, hb, hm2⟩ := h2
    cases al1 with
    | nil =>
      simp only [List.filterMap_nil] at ha hc
      subst ha; subst hc
      exact ⟨al2, ⟨hc2, hb, hm2⟩, by simp [alignCost]⟩
    | cons p1 r1 =>
      obtain ⟨px, py⟩ := p1
      have hm1' : (none, none) ∉ r1 := fun h => hm1 (List.mem_cons_of_mem _ h)
      cases py with
      | none =>
        cases px with
        | none => exact absurd (List.mem_cons_self _ _) hm1
        | some x =>
          simp only [List.filterMap_cons] at ha hc
          subst ha; subst hc
          obtain ⟨al, hal, hcost⟩ :=
            ih r1 al2 (r1.filterMap Prod.fst) (r1.filterMap Prod.snd) b
              (by simp only [List.length_cons] at hlen; omega)
              ⟨rfl, rfl, hm1'⟩ ⟨hc2, hb, hm2⟩
          refine ⟨(some x, none) :: al, ⟨?_, ?_, ?_⟩, ?_⟩
          · simp only [List.filterMap_cons]; rw [hal.1]
          · simp only [List.filterMap_cons]; exact hal.2.1
          · intro hmem
            rcases List.mem_cons.mp hmem with h | h
            · simp at h
            · exact hal.2.2 h
          · simp only [alignCost_cons]; omega
      | some m =>
        simp only [List.filterMap_cons] at hc
        cases al2 with
        | nil =>
          simp only [List.filterMap_nil] at hc2
          rw [← hc2] at hc
          simp at hc
        | cons p2 r2 =>
          obtain ⟨qx, qy⟩ := p2
          have hm2' : (none, none) ∉ r2 := fun h => hm2 (List.mem_cons_of_mem _ h)
          cases qx with
          | none =>
            cases qy with
            | none => exact absurd (List.mem_cons_self _ _) hm2
            | some y =>
              simp only [List.filterMap_cons] at hc2 hb
              subst hb
              obtain ⟨al, hal, hcost⟩ :=
                ih ((px, some m) :: r1) r2 a c (r2.filterMap Prod.snd)
                  (by simp only [List.length_cons] at hlen ⊢; omega)
                  ⟨ha, hc, hm1⟩ ⟨hc2, rfl, hm2'⟩
              refine ⟨(none, some y) :: al, ⟨?_, ?_, ?_⟩, ?_⟩
              · simp only [List.filterMap_cons]; exact hal.1
              · simp only [List.filterMap_cons]; rw [hal.2.1]
              · intro hmem
                rcases List.mem_cons.mp hmem with h | h
                · simp at h
                · exact hal.2.2 h
              · simp only [alignCost_cons] at hcost ⊢; omega
          | some m2 =>
            simp only [List.filterMap_cons] at hc2 hb
            rw [← hc] at hc2
            injection hc2 with hmm hrest
            subst hmm
            obtain ⟨al, hal, hcost⟩ :=
              ih r1 r2 (r1.filterMap Prod.fst) (r1.filterMap Prod.snd) (r2.filterMap Prod.snd)
                (by simp only [List.length_cons] at hlen; omega)
                ⟨rfl, rfl, hm1'⟩ ⟨hrest, rfl, hm2'⟩
            cases px with
            | some x =>
              simp only [List.filterMap_cons] at ha
              subst ha
              cases qy with
              | some y =>
                subst hb
                refine ⟨(some x, some y) :: al, ⟨?_, ?_, ?_⟩, ?_⟩
                · simp only [List.filterMap_cons]; rw [hal.1]
                · simp only [List.filterMap_cons]; rw [hal.2.1]
                · intro hmem
                  rcases List.mem_cons.mp hmem with h | h
                  · simp at h
                  · exact hal.2.2 h
                · have ht := subCost_triangle x m2 y
                  simp only [alignCost_cons, pairCost] at *
                  omega
              | none =>
                subst hb
                refine ⟨(some x, none) :: al, ⟨?_, ?_, ?_⟩, ?_⟩
                · simp only [List.filterMap_cons]; rw [hal.1]
                · simp only [List.filterMap_cons]; exact hal.2.1
                · intro hmem
                  rcases List.mem_cons.mp hmem with h | h
                  · simp at h
                  · exact hal.2.2 h
                · simp only [alignCost_cons, pairCost] at *
                  omega
            | none =>
              simp only [List.filterMap_cons] at ha
              subst ha
              cases qy with
              | some y =>
                subst hb
                refine ⟨(none, some y) :: al, ⟨?_, ?_, ?_⟩, ?_⟩
                · simp only [List.filterMap_cons]; exact hal.1
                · simp only [List.filterMap_cons]; rw [hal.2.1]
                · intro hmem
                  rcases List.mem_cons.mp hmem with h | h
                  · simp at h
                  · exact hal.2.2 h
                · simp only [alignCost_cons, pairCost] at *
                  omega
              | none =>
                subst hb
                refine ⟨al, ⟨hal.1, hal.2.1, hal.2.2⟩, ?_⟩
                simp only [alignCost_cons, pairCost] at *
                omega

theorem editDistance_triangle (a c b : List σ) :
    editDistance a b ≤ editDistance a c + editDistance c b := by
  obtain ⟨al1, h1, c1⟩ := exists_alignment a c
  obtain ⟨al2, h2, c2⟩ := exists_alignment c b
  obtain ⟨al, hal, hcost⟩ :=
    exists_compose_alignment (al1.length + al2.length) al1 al2 a c b le_rfl h1 h2
  calc editDistance a b ≤ alignCost al := editDistance_le_alignCost al a b hal
    _ ≤ alignCost al1 + alignCost al2 := hcost
    _ = editDistance a c + editDistance c b := by rw [c1, c2]

theorem subCost_comm (x y : σ) : subCost x y = subCost y x := by
  by_cases h : x = y
  · simp [subCost, h]
  · simp [subCost, h, Ne.symm h]

theorem pairCost_swap (p : AlignPair σ) : pairCost p.swap = pairCost p := by
  obtain ⟨px, py⟩ := p
  cases px <;> cases py <;> simp [pairCost, Prod.swap, subCost_comm]

theorem isAlignment_swap {al : List (AlignPair σ)} {a b : List σ} (h : IsAlignment al a b) :
    IsAlignment (al.map Prod.swap) b a := by
  obtain ⟨ha, hb, hm⟩ := h
  refine ⟨?_, ?_, ?_⟩
  · rw [List.filterMap_map]
    have : (Prod.fst ∘ Prod.swap : AlignPair σ → Option σ) = Prod.snd := by
      funext p; rfl
    rw [this, hb]
  · rw [List.filterMap_map]
    have : (Prod.snd ∘ Prod.swap : AlignPair σ → Option σ) = Prod.fst := by
      funext p; rfl
    rw [this, ha]
  · intro hmem
    obtain ⟨p, hp, hps⟩ := List.mem_map.mp hmem
    have : p = (none, none) := by
      have := congrArg Prod.swap hps
      simpa using this
    exact hm (this ▸ hp)

theorem alignCost_map_swap (al : List (AlignPair σ)) : alignCost (al.map Prod.swap) = alignCost al := by
  simp [alignCost, List.map_map, Function.comp_def, pairCost_swap]

theorem editDistance_comm (a b : List σ) : editDistance a b = editDistance b a := by
  have key : ∀ u v : List σ, editDistance u v ≤ editDistance v u := by
    intro u v
    obtain ⟨al, hal, hc⟩ := exists_alignment v u
    calc editDistance u v ≤ alignCost (al.map Prod.swap) :=
          editDistance_le_alignCost _ u v (isAlignment_swap hal)
      _ = alignCost al := alignCost_map_swap al
      _ = editDistance v u := hc
  exact le_antisymm (key a b) (key b a)

theorem filterMap_rev {α β : Type} (f : α → Option β) (l : List α) :
    l.reverse.filterMap f = (l.filterMap f).reverse := by
  induction l with
  | nil => rfl
  | cons x xs ih =>
    cases hfx : f x <;>
      simp [List.reverse_cons, List.filterMap_append, List.filterMap_cons, hfx, ih]

theorem isAlignment_rev {al : List (AlignPair σ)} {a b : List σ} (h : IsAlignment al a b) :
    IsAlignment al.reverse a.reverse b.reverse := by
  obtain ⟨ha, hb, hm⟩ := h
  exact ⟨by rw [filterMap_rev, ha], by rw [filterMap_rev, hb],
    fun hmem => hm (List.mem_reverse.mp hmem)⟩

theorem alignCost_rev (al : List (AlignPair σ)) : alignCost al.reverse = alignCost al := by
  simp [alignCost, List.map_reverse, List.sum_reverse]

theorem editDistance_rev (a b : List σ) :
    editDistance a.reverse b.reverse = editDistance a b := by
  have key : ∀ u v : List σ, editDistance u.reverse v.reverse ≤ editDistance u v := by
    intro u v
    obtain ⟨al, hal, hc⟩ := exists_alignment u v
    calc editDistance u.reverse v.reverse ≤ alignCost al.reverse :=
          editDistance_le_alignCost _ _ _ (isAlignment_rev hal)
      _ = alignCost al := alignCost_rev al
      _ = editDistance u v := hc
  refine le_antisymm (key a b) ?_
  have := key a.reverse b.reverse
  simpa using this

theorem edRowAux_head (ra rb b : List σ) :
    ∃ t, edRowAux ra rb b = editDistance ra rb :: t := by
  cases b <;> exact ⟨_, rfl⟩

theorem levInner_edRowAux (ai : σ) (ra : List σ) :
    ∀ (b rb : List σ) (cur0 : Nat), cur0 = editDistance (ai :: ra) rb →
      levInner ai cur0 (edRowAux ra rb b) b = edRowAux (ai :: ra) rb b := by
  intro b
  induction b with
  | nil =>
    intro rb cur0 hc
    subst hc
    rfl
  | cons bj bs ih =>
    intro rb cur0 hc
    subst hc
    obtain ⟨t, ht⟩ := edRowAux_head ra (bj :: rb) bs
    have hstep : edRowAux ra rb (bj :: bs) = editDistance ra rb :: edRowAux ra (bj :: rb) bs := rfl
    have hmin : min (editDistance (ai :: ra) rb + 1)
        (min (editDistance ra (bj :: rb) + 1) (editDistance ra rb + subCost ai bj)) =
          editDistance (ai :: ra) (bj :: rb) := by
      rw [editDistance_cons_cons]
      omega
    rw [hstep, ht]
    rw [show levInner ai (editDistance (ai :: ra) rb)
        (editDistance ra rb :: editDistance ra (bj :: rb) :: t) (bj :: bs) =
        editDistance (ai :: ra) rb ::
          levInner ai (min (editDistance (ai :: ra) rb + 1)
            (min (editDistance ra (bj :: rb) + 1) (editDistance ra rb + subCost ai bj)))
            (editDistance ra (bj :: rb) :: t) bs from rfl]
    rw [hmin, ← ht, ih (bj :: rb) _ rfl]
    rfl

theorem levLoop_edRowAux (b : List σ) :
    ∀ (as ra : List σ),
      levLoop b ra.length (edRowAux ra [] b) as = edRowAux (as.reverse ++ ra) [] b := by
  intro as
  induction as with
  | nil => intro ra; rfl
  | cons ai rest ih =>
    intro ra
    show levLoop b (ra.length + 1) (levInner ai (ra.length + 1) (edRowAux ra [] b) b) rest =
      edRowAux ((ai :: rest).reverse ++ ra) [] b
    rw [levInner_edRowAux ai ra b [] (ra.length + 1) (by simp [editDistance_nil_right])]
    have hlen : ra.length + 1 = (ai :: ra).length := rfl
    rw [hlen, ih (ai :: ra)]
    congr 1
    simp

theorem edRowAux_nil :
    ∀ (b rb : List σ),
      edRowAux [] rb b = (List.range (b.length + 1)).map (· + rb.length) := by
  intro b
  induction b with
  | nil =>
    intro rb
    simp [edRowAux, editDistance_nil_left, List.range_succ]
  | cons bj bs ih =>
    intro rb
    have h1 : edRowAux [] rb (bj :: bs) = editDistance [] rb :: edRowAux [] (bj :: rb) bs := rfl
    rw [h1, editDistance_nil_left, ih (bj :: rb)]
    have h3 : List.range ((bj :: bs).length + 1) = 0 :: (List.range (bs.length + 1)).map (· + 1) := by
      rw [show (bj :: bs).length + 1 = (bs.length + 1) + 1 from rfl, List.range_succ_eq_map]
    rw [h3]
    simp only [List.map_cons, List.map_map, Function.comp_def, List.length_cons, Nat.zero_add]
    refine congrArg₂ List.cons rfl ?_
    refine congrArg₂ List.map ?_ rfl
    funext x
    omega

theorem edRowAux_getD :
    ∀ (b rb ra : List σ),
      (edRowAux ra rb b).getD b.length 0 = editDistance ra (b.reverse ++ rb) := by
  intro b
  induction b with
  | nil => intro rb ra; rfl
  | cons bj bs ih =>
    intro rb ra
    have h1 : edRowAux ra rb (bj :: bs) = editDistance ra rb :: edRowAux ra (bj :: rb) bs := rfl
    rw [h1]
    show (edRowAux ra (bj :: rb) bs).getD bs.length 0 = _
    rw [ih (bj :: rb) ra]
    congr 1
    simp

theorem levAlgorithm_eq (a b : List σ) :
    (if a = b then 0
      else if a.length = 0 then b.length
      else if b.length = 0 then a.length
      else (levLoop b 0 (List.range (b.length + 1)) a).getD b.length 0) =
      editDistance a b := by
  by_cases hab : a = b
  · simp [hab, editDistance_self]
  · simp only [if_neg hab]
    by_cases ha : a.length = 0
    · have h : a = [] := List.length_eq_zero.mp ha
      subst h
      simp [editDistance_nil_left]
    · simp only [if_neg ha]
      by_cases hb : b.length = 0
      · have h : b = [] := List.length_eq_zero.mp hb
        subst h
        simp [editDistance_nil_right]
      · simp only [if_neg hb]
        have hinit : List.range (b.length + 1) = edRowAux [] [] b := by
          rw [edRowAux_nil b []]
          simp
        rw [hinit]
        show (levLoop b ([] : List σ).length (edRowAux [] [] b) a).getD b.length 0 = _
        rw [levLoop_edRowAux b a [], edRowAux_getD b [] (a.reverse ++ [])]
        simp [editDistance_rev]

theorem levenshteinDistance_eq (a b : List Char) :
    levenshteinDistance a b = editDistance a b := by
  unfold levenshteinDistance
  exact levAlgorithm_eq a b

theorem levenshteinDistanceUtf16_eq (a b : List Char) :
    levenshteinDistanceUtf16 a b = editDistance (utf16Units a) (utf16Units b) := by
  unfold levenshteinDistanceUtf16
  exact levAlgorithm_eq (utf16Units a) (utf16Units b)

theorem char_toNat_inj {c d : Char} (h : c.toNat = d.toNat) : c = d :=
  Char.ext (UInt32.ext h)

theorem utf16Char_spec (c : Char) :
    (c.toNat < 0x10000 ∧ utf16Char c = [c.toNat] ∧
      (c.toNat < 0xd800 ∨ 0xdfff < c.toNat)) ∨
    (0x10000 ≤ c.toNat ∧ c.toNat < 0x110000 ∧
      utf16Char c = [0xd800 + (c.toNat - 0x10000) / 0x400,
        0xdc00 + (c.toNat - 0x10000) % 0x400]) := by
  have hv : c.toNat < 0xd800 ∨ (0xdfff < c.toNat ∧ c.toNat < 0x110000) := by
    have h := c.valid
    unfold UInt32.isValidChar Nat.isValidChar at h
    exact h
  by_cases h1 : c.toNat < 0x10000
  · left
    refine ⟨h1, ?_, by omega⟩
    unfold utf16Char
    simp [h1]
  · right
    refine ⟨by omega, by omega, ?_⟩
    unfold utf16Char
    simp [h1]

theorem utf16Units_injective : ∀ a b : List Char, utf16Units a = utf16Units b → a = b := by
  intro a
  induction a with
  | nil =>
    intro b h
    cases b with
    | nil => rfl
    | cons y ys =>
      exfalso
      rcases utf16Char_spec y with ⟨-, hey, -⟩ | ⟨-, -, hey⟩ <;>
        simp [utf16Units, hey] at h
  | cons x xs ih =>
    intro b h
    cases b with
    | nil =>
      exfalso
      rcases utf16Char_spec x with ⟨-, hex, -⟩ | ⟨-, -, hex⟩ <;>
        simp [utf16Units, hex] at h
    | cons y ys =>
      simp only [utf16Units, List.flatMap_cons] at h
      rcases utf16Char_spec x with ⟨hx1, hex, hx2⟩ | ⟨hx1, hx1b, hex⟩ <;>
        rcases utf16Char_spec y with ⟨hy1, hey, hy2⟩ | ⟨hy1, hy1b, hey⟩
      · rw [hex, hey] at h
        simp only [List.cons_append, List.nil_append, List.cons.injEq] at h
        obtain ⟨h1, h2⟩ := h
        rw [char_toNat_inj h1, ih ys h2]
      · exfalso
        rw [hex, hey] at h
        simp only [List.cons_append, List.nil_append, List.cons.injEq] at h
        obtain ⟨h1, -⟩ := h
        omega
      · exfalso
        rw [hex, hey] at h
        simp only [List.cons_append, List.nil_append, List.cons.injEq] at h
        obtain ⟨h1, -⟩ := h
        omega
      · rw [hex, hey] at h
        simp only [List.cons_append, List.nil_append, List.cons.injEq] at h
        obtain ⟨h1, h2, h3⟩ := h
        have hxy : x.toNat = y.toNat := by omega
        rw [char_toNat_inj hxy, ih ys h3]

example : editDistance ['a', 'b'] ['a', 'c'] = 1 := by
  simp [editDistance, subCost]

example : levenshteinDistance ['k', 'i', 't', 't', 'e', 'n'] ['s', 'i', 't', 't', 'i', 'n', 'g'] = 3 := by
  decide

example : levenshteinDistance ['a'] ['a', 'b', 'c'] = 2 := by decide

example : levenshteinDistance [] ['a', 'b'] = 2 := by decide

example : disassembleHangul ['가'] = ['ㄱ', 'ㅏ'] := by decide

example : disassembleHangul ['강'] = ['ㄱ', 'ㅏ', 'ㅇ'] := by decide

example : normalizeForComparison ['강', ' ', 'A', '!'] = ['ㄱ', 'ㅏ', 'ㅇ', 'a'] := by decide

theorem foldl_profileStep (text : List Char) :
    ∀ acc : PhonemeProfile,
      text.foldl profileStep acc =
        ⟨acc.combined ++ text.flatMap combinedContrib,
         acc.initial ++ text.flatMap initialContrib,
         acc.medial ++ text.flatMap medialContrib,
         acc.final ++ text.flatMap finalContrib⟩ := by
  induction text with
  | nil => intro acc; simp
  | cons c cs ih =>
    intro acc
    rw [List.foldl_cons, ih (profileStep acc c)]
    have hcomb : (profileStep acc c).combined = acc.combined ++ combinedContrib c := by
      by_cases h : isHangulSyllable c.toNat <;> simp [profileStep, h, combinedContrib]
    have hinit : (profileStep acc c).initial = acc.initial ++ initialContrib c := by
      by_cases h : isHangulSyllable c.toNat <;> simp [profileStep, h, initialContrib]
    have hmed : (profileStep acc c).medial = acc.medial ++ medialContrib c := by
      by_cases h : isHangulSyllable c.toNat <;> simp [profileStep, h, medialContrib]
    have hfin : (profileStep acc c).final = acc.final ++ finalContrib c := by
      by_cases h : isHangulSyllable c.toNat
      · simp only [profileStep, h, if_pos, finalContrib]
        split
        · rename_i hj
          simp only [List.isEmpty_iff.mp hj, List.append_nil]
        · rfl
      · simp [profileStep, h, finalContrib]
    simp only [List.flatMap_cons, PhonemeProfile.mk.injEq, hcomb, hinit, hmed, hfin]
    refine ⟨?_, ?_, ?_, ?_⟩ <;> simp [List.append_assoc]

theorem CYCLE_eq : CYCLE = 588 := by decide

theorem FINAL_CONSONANT_COUNT_eq : FINAL_CONSONANT_COUNT = 28 := by decide

theorem indexOf_get_of_nodup {α : Type} [BEq α] [LawfulBEq α] :
    ∀ (l : List α), l.Nodup → ∀ (i : Nat) (h : i < l.length), l.indexOf (l.get ⟨i, h⟩) = i := by
  intro l
  induction l with
  | nil => intro _ i h; simp at h
  | cons x xs ih =>
    intro hnd i h
    obtain ⟨hx, hxs⟩ := List.nodup_cons.mp hnd
    cases i with
    | zero => simp [List.indexOf_cons]
    | succ i =>
      have hlt : i < xs.length := by simpa using h
      have hget : (x :: xs).get ⟨i + 1, h⟩ = xs.get ⟨i, hlt⟩ := rfl
      rw [hget]
      have hmem : xs.get ⟨i, hlt⟩ ∈ xs := List.get_mem xs _ hlt
      have hne : (x == xs.get ⟨i, hlt⟩) = false :=
        beq_eq_false_iff_ne.mpr (fun he => hx (he ▸ hmem))
      have hih := ih hxs i hlt
      simp only [List.get_eq_getElem] at hne hih
      simp [List.indexOf_cons, hne, hih]

theorem hangulIndex_bounds {n : Nat} (h1 : HANGUL_BASE ≤ n) (h2 : n ≤ HANGUL_LAST) :
    (n - HANGUL_BASE) / 588 < CHOSEONG.length ∧
      ((n - HANGUL_BASE) % 588) / 28 < JUNGSEONG.length ∧
        (n - HANGUL_BASE) % 28 < JONGSEONG.length := by
  have hc : CHOSEONG.length = 19 := rfl
  have hju : JUNGSEONG.length = 21 := rfl
  have hjo : JONGSEONG.length = 28 := rfl
  rw [hc, hju, hjo]
  simp only [HANGUL_BASE, HANGUL_LAST] at h1 h2 ⊢
  omega

theorem disassembleChar_inBlock {c : Char} (h1 : HANGUL_BASE ≤ c.toNat)
    (h2 : c.toNat ≤ HANGUL_LAST)
    (hi : (c.toNat - HANGUL_BASE) / 588 < CHOSEONG.length)
    (hj : ((c.toNat - HANGUL_BASE) % 588) / 28 < JUNGSEONG.length)
    (hk : (c.toNat - HANGUL_BASE) % 28 < JONGSEONG.length) :
    disassembleChar c =
      CHOSEONG.get ⟨(c.toNat - HANGUL_BASE) / 588, hi⟩ ::
        JUNGSEONG.get ⟨((c.toNat - HANGUL_BASE) % 588) / 28, hj⟩ ::
          JONGSEONG.get ⟨(c.toNat - HANGUL_BASE) % 28, hk⟩ := by
  have hsyll : isHangulSyllable c.toNat = true := by
    simp only [isHangulSyllable, Bool.and_eq_true, decide_eq_true_eq]
    exact ⟨h1, h2⟩
  simp only [disassembleChar, hsyll, if_true, CYCLE_eq, FINAL_CONSONANT_COUNT_eq]
  rw [List.getD_eq_getElem _ _ hi, List.getD_eq_getElem _ _ hj, List.getD_eq_getElem _ _ hk]
  simp [List.get_eq_getElem]

theorem disassembleChar_outBlock {c : Char}
    (h : c.toNat < HANGUL_BASE ∨ HANGUL_LAST < c.toNat) : disassembleChar c = [c] := by
  have hsyll : isHangulSyllable c.toNat = false := by
    cases q : isHangulSyllable c.toNat
    · rfl
    · exfalso
      simp only [isHangulSyllable, Bool.and_eq_true, decide_eq_true_eq] at q
      simp only [HANGUL_BASE, HANGUL_LAST] at q h
      omega
  simp [disassembleChar, hsyll]

theorem similarityScore_self (a : List Char) : similarityScore a a = 1 := by
  unfold similarityScore
  by_cases h : a.length = 0
  · simp [h]
  · have hd : levenshteinDistance a a = 0 := by simp [levenshteinDistance]
    simp [h, hd]

theorem similarityScore_pos_case {p q : List Char} (hp : p.length ≠ 0) (hq : q.length ≠ 0) :
    similarityScore p q =
      max 0 (1 - (levenshteinDistance p q : ℚ) / ((max p.length q.length : ℕ) : ℚ)) := by
  unfold similarityScore
  simp [hp, hq]

theorem similarityScore_nonneg (a b : List Char) : 0 ≤ similarityScore a b := by
  unfold similarityScore
  split_ifs
  · norm_num
  · norm_num
  · exact le_max_left 0 _

theorem similarityScore_le_one (a b : List Char) : similarityScore a b ≤ 1 := by
  unfold similarityScore
  split_ifs
  · norm_num
  · norm_num
  · have hdiv : 0 ≤ (levenshteinDistance a b : ℚ) / ((max a.length b.length : ℕ) : ℚ) :=
      div_nonneg (by positivity) (by positivity)
    apply max_le <;> linarith

/-- C1: similarityScore is 1 on two empty strings, 0 when exactly one side is
empty, and max(0, 1 - distance/maxLength) otherwise; it is 1 on equal inputs
and always lies in [0, 1]. -/
theorem spec_C1 (a b : List Char) :
    (a = [] → b = [] → similarityScore a b = 1) ∧
    (a = [] → b ≠ [] → similarityScore a b = 0) ∧
    (a ≠ [] → b = [] → similarityScore a b = 0) ∧
    (a ≠ [] → b ≠ [] →
      similarityScore a b =
        max 0 (1 - (levenshteinDistance a b : ℚ) / ((max a.length b.length : ℕ) : ℚ))) ∧
    similarityScore a a = 1 ∧
    0 ≤ similarityScore a b ∧ similarityScore a b ≤ 1 := by
  refine ⟨?_, ?_, ?_, ?_, similarityScore_self a,
    similarityScore_nonneg a b, similarityScore_le_one a b⟩
  · intro ha hb
    subst ha; subst hb
    rfl
  · intro ha hb
    subst ha
    have hq : b.length ≠ 0 := fun h => hb (List.length_eq_zero.mp h)
    unfold similarityScore
    simp [hq]
  · intro ha hb
    subst hb
    have hp : a.length ≠ 0 := fun h => ha (List.length_eq_zero.mp h)
    unfold similarityScore
    simp [hp]
  · intro ha hb
    exact similarityScore_pos_case (fun h => ha (List.length_eq_zero.mp h))
      (fun h => hb (List.length_eq_zero.mp h))

theorem spec_C1_witness :
    (['x'] : List Char) ≠ [] ∧ similarityScore [] ['x'] = 0 ∧ similarityScore [] [] = 1 := by
  refine ⟨by decide, ?_, ?_⟩
  · exact (spec_C1 [] ['x']).2.1 rfl (by decide)
  · exact (spec_C1 [] []).1 rfl rfl

/-- C2 counterexample: on the non-BMP input 𝒜 (U+1D49C, a single scalar value
but two UTF-16 code units) against A, the program's code-unit dynamic program
returns 2, while the classic edit distance over Unicode scalar values - what
the claim asserts for every pair of strings - is 1. -/
theorem spec_C2_counterexample :
    levenshteinDistanceUtf16 ['𝒜'] ['A'] = 2 ∧
    editDistance ['𝒜'] ['A'] = 1 ∧
    levenshteinDistance ['𝒜'] ['A'] = 1 := by
  refine ⟨by decide, ?_, by decide⟩
  simp [editDistance, subCost]

/-- C2 (amended): levenshteinDistance computes the classic edit distance
(insertion, deletion, substitution each cost 1) over the UTF-16 code-unit
sequences of its arguments - the JavaScript string view, which coincides with
the scalar view exactly on surrogate-free strings - and it returns 0 iff the
two strings are equal, is symmetric, and satisfies the triangle inequality. -/
theorem spec_C2_amended (a b c : List Char) :
    levenshteinDistanceUtf16 a b = editDistance (utf16Units a) (utf16Units b) ∧
    (levenshteinDistanceUtf16 a b = 0 ↔ a = b) ∧
    levenshteinDistanceUtf16 a b = levenshteinDistanceUtf16 b a ∧
    levenshteinDistanceUtf16 a b ≤
      levenshteinDistanceUtf16 a c + levenshteinDistanceUtf16 c b := by
  refine ⟨levenshteinDistanceUtf16_eq a b, ?_, ?_, ?_⟩
  · rw [levenshteinDistanceUtf16_eq]
    constructor
    · intro h
      exact utf16Units_injective a b ((editDistance_eq_zero_iff _ _).mp h)
    · intro h
      subst h
      exact editDistance_self _
  · rw [levenshteinDistanceUtf16_eq a b, levenshteinDistanceUtf16_eq b a]
    exact editDistance_comm _ _
  · rw [levenshteinDistanceUtf16_eq a b, levenshteinDistanceUtf16_eq a c,
      levenshteinDistanceUtf16_eq c b]
    exact editDistance_triangle _ _ _

/-- C3: inside the 11,172-code-point block [0xAC00, 0xD7A3] a character
decomposes through the three index formulas into in-range entries of the
19/21/28-entry tables (entry 0 of the final table being empty); outside the
block it passes through unchanged. -/
theorem spec_C3 :
    HANGUL_BASE = 0xac00 ∧ HANGUL_LAST = 0xd7a3 ∧ HANGUL_LAST - HANGUL_BASE + 1 = 11172 ∧
    CHOSEONG.length = 19 ∧ JUNGSEONG.length = 21 ∧ JONGSEONG.length = 28 ∧
    JONGSEONG.getD 0 [] = [] ∧
    ∀ c : Char,
      ((HANGUL_BASE ≤ c.toNat ∧ c.toNat ≤ HANGUL_LAST) →
        ∃ (hi : (c.toNat - HANGUL_BASE) / 588 < CHOSEONG.length)
          (hj : ((c.toNat - HANGUL_BASE) % 588) / 28 < JUNGSEONG.length)
          (hk : (c.toNat - HANGUL_BASE) % 28 < JONGSEONG.length),
          disassembleChar c =
            CHOSEONG.get ⟨(c.toNat - HANGUL_BASE) / 588, hi⟩ ::
              JUNGSEONG.get ⟨((c.toNat - HANGUL_BASE) % 588) / 28, hj⟩ ::
                JONGSEONG.get ⟨(c.toNat - HANGUL_BASE) % 28, hk⟩) ∧
      ((c.toNat < HANGUL_BASE ∨ HANGUL_LAST < c.toNat) → disassembleChar c = [c]) := by
  refine ⟨rfl, rfl, by decide, rfl, rfl, rfl, rfl,
    fun c => ⟨fun hin => ?_, fun hout => disassembleChar_outBlock hout⟩⟩
  obtain ⟨hi, hj, hk⟩ := hangulIndex_bounds hin.1 hin.2
  exact ⟨hi, hj, hk, disassembleChar_inBlock hin.1 hin.2 hi hj hk⟩

theorem spec_C3_witness :
    HANGUL_BASE ≤ ('가' : Char).toNat ∧ ('가' : Char).toNat ≤ HANGUL_LAST ∧
      disassembleChar '가' = ['ㄱ', 'ㅏ'] ∧ disassembleChar 'x' = ['x'] := by
  refine ⟨by decide, by decide, ?_, ?_⟩
  · obtain ⟨hi, hj, hk, heq⟩ := (spec_C3.2.2.2.2.2.2.2 '가').1 ⟨by decide, by decide⟩
    rw [heq]
    rfl
  · exact (spec_C3.2.2.2.2.2.2.2 'x').2 (Or.inl (by decide))

/-- C4: round trip over the syllable block - the three glyphs produced by
decomposition, looked up back in the tables, recompose to the original code
point via base + 588*initial + 28*medial + final. -/
theorem spec_C4 (c : Char) (h1 : HANGUL_BASE ≤ c.toNat) (h2 : c.toNat ≤ HANGUL_LAST) :
    ∃ (cho jung : Char) (jong : List Char),
      disassembleChar c = cho :: jung :: jong ∧
      HANGUL_BASE + 588 * CHOSEONG.indexOf cho + 28 * JUNGSEONG.indexOf jung +
        JONGSEONG.indexOf jong = c.toNat := by
  obtain ⟨hi, hj, hk⟩ := hangulIndex_bounds h1 h2
  refine ⟨_, _, _, disassembleChar_inBlock h1 h2 hi hj hk, ?_⟩
  rw [indexOf_get_of_nodup CHOSEONG (by decide) _ hi,
    indexOf_get_of_nodup JUNGSEONG (by decide) _ hj,
    indexOf_get_of_nodup JONGSEONG (by decide) _ hk]
  simp only [HANGUL_BASE, HANGUL_LAST] at h1 h2 ⊢
  omega

theorem spec_C4_witness :
    HANGUL_BASE + 588 * CHOSEONG.indexOf 'ㄱ' + 28 * JUNGSEONG.indexOf 'ㅏ' +
      JONGSEONG.indexOf ['ㄱ'] = ('각' : Char).toNat := by
  obtain ⟨cho, jung, jong, heq, hsum⟩ := spec_C4 '각' (by decide) (by decide)
  have hval : disassembleChar '각' = ['ㄱ', 'ㅏ', 'ㄱ'] := by decide
  rw [hval] at heq
  obtain ⟨h1, h2, h3⟩ : 'ㄱ' = cho ∧ 'ㅏ' = jung ∧ ['ㄱ'] = jong := by simpa using heq
  rw [h3, h1, h2]
  exact hsum

/-- C5: createPhonemeProfile is, channel by channel, the sanitized
concatenation of the per-character contributions (three-glyph concatenation /
initial glyph / medial glyph / final glyph when present for decomposing
characters; the identically sanitized character otherwise), and
normalizeForComparison is the combined channel. -/
theorem spec_C5 (text : List Char) :
    createPhonemeProfile text =
      { combined := sanitizeSequence (text.flatMap combinedContrib)
        initial := sanitizeSequence (text.flatMap initialContrib)
        medial := sanitizeSequence (text.flatMap medialContrib)
        final := sanitizeSequence (text.flatMap finalContrib) } ∧
    normalizeForComparison text = (createPhonemeProfile text).combined := by
  constructor
  · unfold createPhonemeProfile
    rw [foldl_profileStep text ⟨[], [], [], []⟩]
    rfl
  · rfl

theorem toPercent_one : toPercent 1 = 100 := by
  unfold toPercent
  rw [show (1 : ℚ) * 100 + 1 / 2 = 201 / 2 by norm_num]
  rw [Int.floor_eq_iff] <;> norm_num

theorem toPercent_zero : toPercent 0 = 0 := by
  unfold toPercent
  rw [show (0 : ℚ) * 100 + 1 / 2 = 1 / 2 by norm_num]
  rw [Int.floor_eq_iff] <;> norm_num

/-- C10: with both combined profiles at most 199 characters long, the rounded
overall percent is 100 exactly when the two profiles are equal, so rounding
can never award the winning score to a differing guess. -/
theorem spec_C10 (p q : List Char) (hp : p.length ≤ 199) (hq : q.length ≤ 199) :
    (toPercent (similarityScore p q) = 100 ↔ p = q) := by
  constructor
  · intro h
    by_contra hne
    have hlt : toPercent (similarityScore p q) < 100 := by
      by_cases hp0 : p.length = 0 <;> by_cases hq0 : q.length = 0
      · exact absurd (by rw [List.length_eq_zero.mp hp0, List.length_eq_zero.mp hq0]) hne
      · have hs : similarityScore p q = 0 := by
          unfold similarityScore
          simp [hp0, hq0]
        rw [hs, toPercent_zero]
        norm_num
      · have hs : similarityScore p q = 0 := by
          unfold similarityScore
          simp [hp0, hq0]
        rw [hs, toPercent_zero]
        norm_num
      · have hdist : 1 ≤ levenshteinDistance p q := by
          rcases Nat.eq_zero_or_pos (levenshteinDistance p q) with h0 | h0
          · rw [levenshteinDistance_eq] at h0
            exact absurd ((editDistance_eq_zero_iff p q).mp h0) hne
          · exact h0
        have hm1 : 1 ≤ max p.length q.length :=
          le_trans (Nat.one_le_iff_ne_zero.mpr hp0) (le_max_left _ _)
        have hm199 : max p.length q.length ≤ 199 := max_le hp hq
        have hmQ : (1 : ℚ) ≤ ((max p.length q.length : ℕ) : ℚ) := by exact_mod_cast hm1
        have hmQ199 : ((max p.length q.length : ℕ) : ℚ) ≤ 199 := by exact_mod_cast hm199
        have hmpos : (0 : ℚ) < ((max p.length q.length : ℕ) : ℚ) := by linarith
        have hdQ : (1 : ℚ) ≤ (levenshteinDistance p q : ℚ) := by exact_mod_cast hdist
        have hsim : similarityScore p q ≤ 1 - 1 / ((max p.length q.length : ℕ) : ℚ) := by
          rw [similarityScore_pos_case hp0 hq0]
          apply max_le
          · have hone : 1 / ((max p.length q.length : ℕ) : ℚ) ≤ 1 := by
              rw [div_le_one hmpos]
              exact hmQ
            linarith
          · have hstep : 1 / ((max p.length q.length : ℕ) : ℚ) ≤
                (levenshteinDistance p q : ℚ) / ((max p.length q.length : ℕ) : ℚ) :=
              (div_le_div_right hmpos).mpr hdQ
            linarith
        have hhalf : (1 : ℚ) / 199 ≤ 1 / ((max p.length q.length : ℕ) : ℚ) :=
          one_div_le_one_div_of_le hmpos hmQ199
        have hfinal : similarityScore p q * 100 + 1 / 2 < 100 := by
          have hmul : similarityScore p q * 100 ≤
              (1 - 1 / ((max p.length q.length : ℕ) : ℚ)) * 100 :=
            mul_le_mul_of_nonneg_right hsim (by norm_num)
          have hq1 : (1 : ℚ) / 2 < 100 * (1 / 199 : ℚ) := by norm_num
          have hq2 : (100 : ℚ) * (1 / 199) ≤ 100 * (1 / ((max p.length q.length : ℕ) : ℚ)) :=
            mul_le_mul_of_nonneg_left hhalf (by norm_num)
          nlinarith
        unfold toPercent
        apply Int.floor_lt.mpr
        push_cast
        exact hfinal
    omega
  · intro h
    subst h
    rw [similarityScore_self, toPercent_one]

theorem spec_C10_witness :
    (['a'] : List Char).length ≤ 199 ∧ toPercent (similarityScore ['a'] ['a']) = 100 :=
  ⟨by decide, (spec_C10 ['a'] ['a'] (by decide) (by decide)).mpr rfl⟩

theorem scorePhonemes_self (t : List Char) :
    (scorePhonemes t (createPhonemeProfile t)).overall = 100 := by
  show toPercent (similarityScore (createPhonemeProfile t).combined
    (createPhonemeProfile t).combined) = 100
  rw [similarityScore_self, toPercent_one]

theorem handleSubmit_accepted (s : GameState)
    (h1 : jsTrim s.inputValue ≠ [])
    (h2 : normalizeForComparison (jsTrim s.inputValue) ≠ [])
    (h3 : ∀ g ∈ s.guesses, g.normalized ≠ normalizeForComparison (jsTrim s.inputValue)) :
    handleSubmit s =
      (let guess := jsTrim s.inputValue
      let breakdown := scorePhonemes guess (createPhonemeProfile s.currentEntry.term)
      let newGuess : Guess :=
        { value := guess
          normalized := normalizeForComparison guess
          breakdown := breakdown }
      let base : GameState :=
        { s with
          guesses := newGuess :: s.guesses
          inputValue := []
          stats := recordGuess (breakdown.overall == 100) s.stats
          feedback := some (formatFeedbackTone breakdown.overall) }
      if breakdown.overall == 100 then
        { base with
          status := GameStatus.cleared
          solvedTerms :=
            if s.solvedTerms.contains s.currentEntry.term then s.solvedTerms
            else s.solvedTerms ++ [s.currentEntry.term] }
      else base) := by
  unfold handleSubmit
  have e1 : (jsTrim s.inputValue).isEmpty = false := by
    cases hq : (jsTrim s.inputValue).isEmpty
    · rfl
    · exact absurd (List.isEmpty_iff.mp hq) h1
  have e2 : (normalizeForComparison (jsTrim s.inputValue)).isEmpty = false := by
    cases hq : (normalizeForComparison (jsTrim s.inputValue)).isEmpty
    · rfl
    · exact absurd (List.isEmpty_iff.mp hq) h2
  have e3 : (s.guesses.any fun item =>
      item.normalized == normalizeForComparison (jsTrim s.inputValue)) = false := by
    rw [List.any_eq_false]
    intro g hg
    simp only [beq_iff_eq]
    exact h3 g hg
  simp only [e1, e2, e3, Bool.false_eq_true, if_false]

/-- C6: an accepted guess is prepended to the guess list, increments
totalGuesses, and increments correctAnswers exactly when the overall percent is
100; submitting the exact target term yields overall 100, status Cleared, and
an idempotent insert of the term into the solved set. -/
theorem spec_C6 :
    (∀ s : GameState,
      jsTrim s.inputValue = s.currentEntry.term →
      normalizeForComparison s.currentEntry.term ≠ [] →
      (∀ g ∈ s.guesses, g.normalized ≠ normalizeForComparison s.currentEntry.term) →
      (handleSubmit s).status = GameStatus.cleared ∧
      (handleSubmit s).solvedTerms =
        (if s.solvedTerms.contains s.currentEntry.term then s.solvedTerms
          else s.solvedTerms ++ [s.currentEntry.term]) ∧
      (∃ g, (handleSubmit s).guesses = g :: s.guesses ∧ g.breakdown.overall = 100) ∧
      (handleSubmit s).stats.totalGuesses = s.stats.totalGuesses + 1 ∧
      (handleSubmit s).stats.correctAnswers = s.stats.correctAnswers + 1) ∧
    (∀ s : GameState,
      jsTrim s.inputValue ≠ [] →
      normalizeForComparison (jsTrim s.inputValue) ≠ [] →
      (∀ g ∈ s.guesses, g.normalized ≠ normalizeForComparison (jsTrim s.inputValue)) →
      ∃ g, (handleSubmit s).guesses = g :: s.guesses ∧
        (handleSubmit s).stats.totalGuesses = s.stats.totalGuesses + 1 ∧
        (handleSubmit s).stats.correctAnswers =
          s.stats.correctAnswers + (if g.breakdown.overall = 100 then 1 else 0)) := by
  constructor
  · intro s hexact hnorm hdup
    have h1 : jsTrim s.inputValue ≠ [] := by
      rw [hexact]
      intro hh
      exact hnorm (by rw [hh]; rfl)
    have h2 : normalizeForComparison (jsTrim s.inputValue) ≠ [] := by
      rw [hexact]; exact hnorm
    have h3 : ∀ g ∈ s.guesses, g.normalized ≠ normalizeForComparison (jsTrim s.inputValue) := by
      rw [hexact]; exact hdup
    have hov : (scorePhonemes (jsTrim s.inputValue)
        (createPhonemeProfile s.currentEntry.term)).overall = 100 := by
      rw [hexact]; exact scorePhonemes_self s.currentEntry.term
    rw [handleSubmit_accepted s h1 h2 h3]
    refine ⟨?_, ?_, ⟨⟨jsTrim s.inputValue, normalizeForComparison (jsTrim s.inputValue),
      scorePhonemes (jsTrim s.inputValue) (createPhonemeProfile s.currentEntry.term)⟩, ?_, hov⟩,
      ?_, ?_⟩ <;>
      simp [hov, recordGuess]
  · intro s h1 h2 h3
    rw [handleSubmit_accepted s h1 h2 h3]
    by_cases hov : (scorePhonemes (jsTrim s.inputValue)
        (createPhonemeProfile s.currentEntry.term)).overall = 100
    · refine ⟨⟨jsTrim s.inputValue, normalizeForComparison (jsTrim s.inputValue),
        scorePhonemes (jsTrim s.inputValue) (createPhonemeProfile s.currentEntry.term)⟩,
        ?_, ?_, ?_⟩ <;>
        simp [hov, recordGuess]
    · have hbe : ((scorePhonemes (jsTrim s.inputValue)
          (createPhonemeProfile s.currentEntry.term)).overall == 100) = false :=
        beq_eq_false_iff_ne.mpr hov
      refine ⟨⟨jsTrim s.inputValue, normalizeForComparison (jsTrim s.inputValue),
        scorePhonemes (jsTrim s.inputValue) (createPhonemeProfile s.currentEntry.term)⟩,
        ?_, ?_, ?_⟩ <;>
        simp [hov, hbe, recordGuess]

theorem spec_C6_witness :
    (handleSubmit exState).status = GameStatus.cleared ∧
    (handleSubmit exState).stats.totalGuesses = 1 ∧
    (handleSubmit exState).stats.correctAnswers = 1 ∧
    (handleSubmit exState).solvedTerms = [['a', 'b']] := by
  obtain ⟨hst, hsolved, hex, htot, hcorr⟩ :=
    spec_C6.1 exState (by decide) (by decide) (by intro g hg; simp [exState] at hg)
  refine ⟨hst, ?_, ?_, ?_⟩
  · simpa [exState] using htot
  · simpa [exState] using hcorr
  · rw [hsolved]
    decide

/-- C9: a submission whose trimmed input is empty, normalizes to the empty
profile, or duplicates an earlier normalized guess only sets a warn feedback
and leaves guesses, status, stats and the solved set unchanged. -/
theorem spec_C9 (s : GameState)
    (h : jsTrim s.inputValue = [] ∨ normalizeForComparison (jsTrim s.inputValue) = [] ∨
      ∃ g ∈ s.guesses, g.normalized = normalizeForComparison (jsTrim s.inputValue)) :
    handleSubmit s = { s with feedback := some .warn } ∧
    (handleSubmit s).guesses = s.guesses ∧
    (handleSubmit s).status = s.status ∧
    (handleSubmit s).stats = s.stats ∧
    (handleSubmit s).solvedTerms = s.solvedTerms := by
  have hmain : handleSubmit s = { s with feedback := some .warn } := by
    unfold handleSubmit
    by_cases e1 : (jsTrim s.inputValue).isEmpty = true
    · simp [e1]
    · have h1 : jsTrim s.inputValue ≠ [] := fun hh => e1 (List.isEmpty_iff.mpr hh)
      rw [Bool.not_eq_true] at e1
      by_cases e2 : (normalizeForComparison (jsTrim s.inputValue)).isEmpty = true
      · simp [e1, e2]
      · have h2 : normalizeForComparison (jsTrim s.inputValue) ≠ [] :=
          fun hh => e2 (List.isEmpty_iff.mpr hh)
        rw [Bool.not_eq_true] at e2
        have e3 : (s.guesses.any fun item =>
            item.normalized == normalizeForComparison (jsTrim s.inputValue)) = true := by
          rcases h with hh | hh | hh
          · exact absurd hh h1
          · exact absurd hh h2
          · obtain ⟨g, hg, he⟩ := hh
            exact List.any_eq_true.mpr ⟨g, hg, by simp [he]⟩
        simp [e1, e2, e3]
  exact ⟨hmain, by rw [hmain], by rw [hmain], by rw [hmain], by rw [hmain]⟩

theorem spec_C9_witness :
    handleSubmit exStateEmpty = { exStateEmpty with feedback := some FeedbackTone.warn } :=
  (spec_C9 exStateEmpty (Or.inl (by decide))).1

theorem getElem_mod_mem {l : List WordEntry} (h : 0 < l.length) (r : Nat) :
    ∃ e, l[r % l.length]? = some e ∧ e ∈ l := by
  have hidx : r % l.length < l.length := Nat.mod_lt _ h
  exact ⟨l[r % l.length], List.getElem?_eq_getElem hidx, List.getElem_mem hidx⟩

/-- C7: Endless-mode selection always succeeds on a non-empty catalog, draws
from the pool excluding the previous term and the solved terms (falling back to
exclude-previous-only, then to the whole catalog), never repeats the previous
term unless the catalog has a single entry, and on the spec's example catalog
the only possible output is 하늘. -/
theorem spec_C7 :
    (∀ (words : List WordEntry) (rnd : Nat) (previousTerm : List Char)
        (solved : List (List Char)),
      words ≠ [] →
      (words.map (fun w => w.term)).Nodup →
      ∃ e, pickNextEntry words rnd previousTerm solved = some e ∧ e ∈ words ∧
        (2 ≤ words.length → e.term ≠ previousTerm)) ∧
    (∀ rnd : Nat,
      pickNextEntry exCatalog rnd ['바', '다'] [['가', '방']] = some ⟨['하', '늘'], [], [], []⟩) := by
  constructor
  · intro words rnd previousTerm solved hne hnodup
    unfold pickNextEntry
    by_cases hu : 0 < (words.filter
        (fun item => item.term != previousTerm && !(solved.contains item.term))).length
    · obtain ⟨e, he, hmem⟩ := getElem_mod_mem hu rnd
      have hcond := (List.mem_filter.mp hmem).2
      simp only [Bool.and_eq_true, bne_iff_ne] at hcond
      refine ⟨e, ?_, (List.mem_filter.mp hmem).1, fun _ => hcond.1⟩
      simp only [hu, if_pos]
      exact he
    · have hu0 : ¬((words.filter
          (fun item => item.term != previousTerm && !(solved.contains item.term))).length > 0) := hu
      by_cases hf : (words.filter (fun item => item.term != previousTerm)).length = 0
      · have hflen : 0 < words.length := List.length_pos.mpr hne
        obtain ⟨e, he, hmem⟩ := getElem_mod_mem hflen rnd
        have hall : ∀ w ∈ words, w.term = previousTerm := by
          intro w hw
          have hnil : words.filter (fun item => item.term != previousTerm) = [] :=
            List.length_eq_zero.mp hf
          have := List.filter_eq_nil_iff.mp hnil w hw
          simpa using this
        have hlen1 : words.length = 1 := by
          cases words with
          | nil => exact absurd rfl hne
          | cons w ws =>
            cases ws with
            | nil => rfl
            | cons w2 ws2 =>
              exfalso
              have e1 : w.term = previousTerm := hall w (by simp)
              have e2 : w2.term = previousTerm := hall w2 (by simp)
              simp only [List.map_cons, List.nodup_cons, List.mem_cons, List.mem_map,
                not_or] at hnodup
              exact hnodup.1.1 (e1.trans e2.symm)
        refine ⟨e, ?_, hmem, fun h2 => absurd hlen1 (by omega)⟩
        simp only [hu0, if_neg, hf, if_pos]
        exact he
      · have hfpos : 0 < (words.filter (fun item => item.term != previousTerm)).length :=
          Nat.pos_of_ne_zero hf
        obtain ⟨e, he, hmem⟩ := getElem_mod_mem hfpos rnd
        have hcond := (List.mem_filter.mp hmem).2
        simp only [bne_iff_ne] at hcond
        refine ⟨e, ?_, (List.mem_filter.mp hmem).1, fun _ => hcond⟩
        simp only [hu0, if_neg, hf, if_neg]
        exact he
  · intro rnd
    unfold pickNextEntry
    have h1 : exCatalog.filter
        (fun item => item.term != ['바', '다'] && !(List.contains [['가', '방']] item.term)) =
        [⟨['하', '늘'], [], [], []⟩] := by decide
    rw [h1]
    simp [Nat.mod_one]

theorem spec_C7_witness :
    exCatalog ≠ [] ∧ (exCatalog.map (fun w => w.term)).Nodup ∧
      pickNextEntry exCatalog 7 ['바', '다'] [['가', '방']] = some ⟨['하', '늘'], [], [], []⟩ := by
  refine ⟨by decide, by decide, ?_⟩
  have hgeneral := spec_C7.1 exCatalog 7 ['바', '다'] [['가', '방']] (by decide) (by decide)
  exact spec_C7.2 7

/-- The stepwise 32-bit truncation of the source hash agrees with truncating
the untruncated polynomial hash once at the end. -/
theorem foldl_hash_mod (seed : List Char) :
    ∀ h0 : Nat, seed.foldl (fun h c => (h * 31 + c.toNat) % 2 ^ 32) (h0 % 2 ^ 32) =
      (seed.foldl (fun h c => h * 31 + c.toNat) h0) % 2 ^ 32 := by
  induction seed with
  | nil => intro h0; rfl
  | cons c cs ih =>
    intro h0
    rw [List.foldl_cons, List.foldl_cons]
    have hstep : (h0 % 2 ^ 32 * 31 + c.toNat) % 2 ^ 32 = (h0 * 31 + c.toNat) % 2 ^ 32 := by
      have h32 : (2 : Nat) ^ 32 = 4294967296 := by norm_num
      rw [h32]
      omega
    rw [hstep]
    exact ih (h0 * 31 + c.toNat)

/-- C8: daily selection is the pure function seed ↦ catalog[(polynomial hash of
the seed mod 2^32) mod catalog size], with bit-exact unsigned 32-bit
wraparound; equal seeds always select the same entry, and a non-empty catalog
always yields a selection. -/
theorem spec_C8 (words : List WordEntry) (seed : List Char) :
    createDailyEntry words seed = words[(polyHash seed % 2 ^ 32) % words.length]? ∧
    (words ≠ [] → ∃ e, createDailyEntry words seed = some e) ∧
    (∀ seed2 : List Char, seed2 = seed →
      createDailyEntry words seed2 = createDailyEntry words seed) := by
  have hmain : createDailyEntry words seed = words[(polyHash seed % 2 ^ 32) % words.length]? := by
    unfold createDailyEntry polyHash
    have h := foldl_hash_mod seed 0
    rw [show (0 : Nat) % 2 ^ 32 = 0 from rfl] at h
    rw [h]
  refine ⟨hmain, ?_, fun seed2 h2 => by rw [h2]⟩
  intro hne
  rw [hmain]
  have hlen : 0 < words.length := List.length_pos.mpr hne
  have hidx : (polyHash seed % 2 ^ 32) % words.length < words.length := Nat.mod_lt _ hlen
  exact ⟨_, List.getElem?_eq_getElem hidx⟩

theorem spec_C8_witness :
    exCatalog ≠ [] ∧
    createDailyEntry exCatalog ['2', '0'] =
      exCatalog[(polyHash ['2', '0'] % 2 ^ 32) % exCatalog.length]? ∧
    (createDailyEntry exCatalog ['2', '0']).isSome = true := by
  refine ⟨by decide, (spec_C8 exCatalog ['2', '0']).1, ?_⟩
  obtain ⟨e, he⟩ := (spec_C8 exCatalog ['2', '0']).2.1 (by decide)
  rw [he]
  rfl

end GoGame
